import Mathlib

/-!
# Verification of the rCore-style pedagogical RISC-V kernel

Shallow embedding of the parts of the kernel that the checked claims are
about, together with theorems settling each claim:

* the file-descriptor table operations of `SyscallContext::open` /
  `SyscallContext::close` (src/ch8/src/main.rs);
* the stride scheduler `ProcManager::fetch` (src/ch5/src/processor.rs)
  and the dispatch-time stride increment (src/ch5/src/main.rs);
* `Process::from_elf` and `Process::change_program_brk`
  (src/ch5/src/process.rs) and the `sbrk` syscall (src/ch5/src/main.rs);
* the `mmap` handler (src/ch4/src/main.rs);
* the syscall dispatcher's signal-handling step (src/ch8/src/main.rs);
* the pipe ring buffer (src/ch6/tg-easy-fs/src/pipe.rs);
* `FileSystem::open` (src/ch6/src/fs.rs) over `Inode` (tg-easy-fs/src/vfs.rs).

Machine integers are modelled as `Nat`/`Int` with explicit `% 2 ^ w`
where overflow matters (`usize` is 64-bit).
-/

set_option autoImplicit false

namespace OsKernel

/-! ## Sv39 virtual-memory flags and address spaces

The flag/page-table machinery lives in the external `tg-kernel-vm` crate;
only its callers are under `src/`.  The operations below are therefore
modelled from the spec (§4.2), with the mnemonic-string flag encoding of
`build_flags` ("positional: U, X, W, R, V, with `_` meaning absent"). -/

/-- One `VmFlags` value: the V/R/W/X/U bits a mapping call requests
(the G/A/D bits and the kernel-private OWNED bit are carried separately;
OWNED is modelled on the map entry). -/
structure VmFlags where
  v : Bool
  r : Bool
  w : Bool
  x : Bool
  u : Bool
deriving DecidableEq, Repr

/-- `build_flags "U_WRV"`: user heap / stack / mmap flags (U, W, R, V set). -/
def flagsUWRV : VmFlags := ⟨true, true, true, false, true⟩

/-- `build_flags "__V"`: the validity-only mask `CHECK_FLAGS` used by `mmap`. -/
def flagsV : VmFlags := ⟨true, false, false, false, false⟩

/-- Flag inclusion: `(pte.flags & required) == required`. -/
def VmFlags.includes (have_ req : VmFlags) : Bool :=
  (!req.v || have_.v) && (!req.r || have_.r) && (!req.w || have_.w) &&
    (!req.x || have_.x) && (!req.u || have_.u)

/-- One leaf mapping: a virtual page number, its PTE flags, and whether the
backing frame is kernel-OWNED (allocated by `map`) or external
(`map_extern`).  Page contents are not modelled; `map` zero-fills every
page it allocates (`Sv39Manager::allocate` uses `alloc_zeroed`,
src/ch4/src/main.rs) before copying the supplied data. -/
structure MapEntry where
  vpn : Nat
  flags : VmFlags
  owned : Bool
deriving DecidableEq, Repr

/-- The page numbers `[s, e)`. -/
def pagesIn (s e : Nat) : List Nat := (List.range (e - s)).map (s + ·)

/-- Modelled from the spec: `AddressSpace` of the external `tg-kernel-vm`
crate — the set of leaf mappings plus the shared-portal root entry
(`map_portal` copies the top-level page-table entry for the portal VPN). -/
structure AddressSpace where
  pages : List MapEntry
  portalShared : Bool
deriving DecidableEq, Repr

/-- Modelled from the spec: `AddressSpace::new()` — an empty space. -/
def AddressSpace.new : AddressSpace := ⟨[], false⟩

/-- Modelled from the spec (§4.2): `map(vpn_range, data, offset, flags)`
allocates zeroed pages for every VPN in the range, installs leaf PTEs with
the requested flags plus OWNED, and copies `data` into the first bytes. -/
def AddressSpace.map (a : AddressSpace) (s e : Nat) (flags : VmFlags) :
    AddressSpace :=
  { a with pages := a.pages ++ (pagesIn s e).map (fun p => ⟨p, flags, true⟩) }

/-- Modelled from the spec (§4.2): `map_extern` installs leaf PTEs pointing
at caller-supplied physical pages without the OWNED bit. -/
def AddressSpace.map_extern (a : AddressSpace) (s e : Nat) (flags : VmFlags) :
    AddressSpace :=
  { a with pages := a.pages ++ (pagesIn s e).map (fun p => ⟨p, flags, false⟩) }

/-- Modelled from the spec (§4.2): `unmap(vpn_range)` removes every leaf in
the range (freeing OWNED frames, which are not modelled further). -/
def AddressSpace.unmap (a : AddressSpace) (s e : Nat) : AddressSpace :=
  { a with pages := a.pages.filter (fun m => decide (m.vpn < s) || decide (e ≤ m.vpn)) }

/-- Modelled from the spec (§4.2): `translate(vaddr, required)` succeeds iff
the page of `vaddr` has a valid leaf whose flags include `required`. -/
def AddressSpace.translateOk (a : AddressSpace) (vaddr : Nat) (req : VmFlags) :
    Bool :=
  a.pages.any (fun m => decide (m.vpn = vaddr / 4096) && m.flags.includes req)

/-- `map_portal` (src/ch5/src/main.rs:362): copy the kernel root's top-level
entry for the portal VPN into this space. -/
def AddressSpace.mapPortal (a : AddressSpace) : AddressSpace :=
  { a with portalShared := true }

/-! ## Claim C1 — fd table: `open` / `close` (src/ch8/src/main.rs)

`SyscallContext::open` (lines 479–500): on success the new file is pushed
at index `fd_table.len()`; `SyscallContext::close` (lines 502–508) `take`s
the slot.  Only the fd-table effect is embedded; the path translation and
`FS.open` outcome is the `fsResult` parameter (`none` = failure). -/

/-- An fd-table slot holds a file handle (abstracted to an id) or is free. -/
abbrev FdTable := List (Option Nat)

/-- fd-table effect of `SyscallContext::open`: if `FS.open` produced a
handle, `new_fd = fd_table.len()` and the handle is pushed; otherwise `-1`
and the table is untouched. -/
def openFdEffect (t : FdTable) (fsResult : Option Nat) : Int × FdTable :=
  match fsResult with
  | some h => ((t.length : Int), t ++ [some h])
  | none => (-1, t)

/-- `SyscallContext::close`: `-1` if the fd is out of range or the slot is
already free; otherwise `take()` the slot (leaving `None`) and return 0. -/
def closeFdEffect (t : FdTable) (fd : Nat) : Int × FdTable :=
  if t.length ≤ fd ∨ t.getD fd none = none then (-1, t)
  else (0, t.set fd none)

/-- The lowest free slot of an fd table (the table length when no slot is
free).  Used to state the claim's "lowest free slot" side condition. -/
def lowestFreeSlot (t : FdTable) : Nat :=
  (t.findIdx? (fun s => s = none)).getD t.length

/-- C1 counterexample: start from the initial three stdio slots
(`Process::from_elf`, src/ch8/src/process.rs:197), `open` returns fd 3,
`close 3` leaves slot 3 `None` and 3 is the lowest free slot, yet the next
`open` returns fd 4, and ¬(4 ≤ 3): the fd is never reused. -/
theorem fd_not_reused_counterexample :
    let t0 : FdTable := [some 0, some 1, some 2]
    let o1 := openFdEffect t0 (some 10)
    let c := closeFdEffect o1.2 3
    o1.1 = 3 ∧ c.1 = 0 ∧ c.2.getD 3 none = none ∧ lowestFreeSlot c.2 = 3 ∧
      (openFdEffect c.2 (some 11)).1 = 4 ∧ ¬((4 : Int) ≤ 3) := by
  decide

/-- Setting the element just past a list prefix rewrites the appended
singleton. -/
theorem set_append_last {α : Type} (t : List α) (a b : α) :
    (t ++ [a]).set t.length b = t ++ [b] := by
  induction t with
  | nil => rfl
  | cons x xs ih => simp [List.set, ih]

/-- Reading the element just past a list prefix yields the appended
singleton. -/
theorem getD_append_last {α : Type} (t : List α) (a d : α) :
    (t ++ [a]).getD t.length d = a := by
  induction t with
  | nil => rfl
  | cons x xs ih => simp [List.getD, ih]

/-- C1 (amended): after a successful `open` returning `fd` followed by
`close fd`, the slot at `fd` is `None`; but a subsequent successful `open`
returns `fd_table.len()`, which is strictly greater than the just-closed
`fd` — freed slots are never reused. -/
theorem open_close_open_fd (t : FdTable) (h h' : Nat) (fd : Int) (t1 : FdTable)
    (hopen : openFdEffect t (some h) = (fd, t1)) :
    (closeFdEffect t1 fd.toNat).1 = 0 ∧
      (closeFdEffect t1 fd.toNat).2.getD fd.toNat none = none ∧
      (openFdEffect (closeFdEffect t1 fd.toNat).2 (some h')).1 = fd + 1 ∧
      fd < (openFdEffect (closeFdEffect t1 fd.toNat).2 (some h')).1 := by
  simp only [openFdEffect, Prod.mk.injEq] at hopen
  obtain ⟨hfd, ht1⟩ := hopen
  subst ht1
  have hfdn : fd.toNat = t.length := by rw [← hfd]; exact Int.toNat_natCast _
  have hcond : ¬((t ++ [some h]).length ≤ fd.toNat ∨
      (t ++ [some h]).getD fd.toNat none = none) := by
    rw [hfdn, getD_append_last]
    simp
  have hclose : closeFdEffect (t ++ [some h]) fd.toNat =
      (0, t ++ [none]) := by
    rw [closeFdEffect, if_neg hcond, hfdn, set_append_last]
  refine ⟨by rw [hclose], ?_, ?_, ?_⟩
  · rw [hclose, hfdn, getD_append_last]
  · rw [hclose]
    simp [openFdEffect, ← hfd]
  · rw [hclose]
    simp only [openFdEffect]
    rw [← hfd]
    simp

/-- Witness for `open_close_open_fd`: open onto the three stdio slots
(fd 3), close it, open again (fd 4 > 3). -/
theorem open_close_open_fd_witness :
    (closeFdEffect [some 0, some 1, some 2, some 10] (Int.toNat 3)).1 = 0 ∧
      (closeFdEffect [some 0, some 1, some 2, some 10]
        (Int.toNat 3)).2.getD (Int.toNat 3) none = none ∧
      (openFdEffect (closeFdEffect [some 0, some 1, some 2, some 10]
        (Int.toNat 3)).2 (some 11)).1 = 3 + 1 ∧
      (3 : Int) < (openFdEffect (closeFdEffect [some 0, some 1, some 2, some 10]
        (Int.toNat 3)).2 (some 11)).1 :=
  open_close_open_fd [some 0, some 1, some 2] 10 11 3
    [some 0, some 1, some 2, some 10] (by decide)

/-! ## Claim C2/C3 — stride scheduler (src/ch5/src/processor.rs, main.rs)

`Process` (src/ch5/src/process.rs:41) with the fields the claims range
over; the saved user context is reduced to its entry point and stack
pointer (`LocalContext::user(entry)`, `*context.sp_mut()`), and the
machine-specific `satp`/`pid` bookkeeping is omitted. -/

/-- The ch5 `Process`: address space, heap bounds, stride-scheduling
state, and the initial user context's entry/sp. -/
structure Process where
  entry : Nat
  sp : Nat
  address_space : AddressSpace
  heap_bottom : Nat
  program_brk : Nat
  stride : Nat
  priority : Nat
deriving DecidableEq, Repr

/-- `usize::MAX` on the 64-bit target — the initial `min_stride`. -/
def USIZE_MAX : Nat := 2 ^ 64 - 1

/-- `BIG_STRIDE = 1 << 20` (src/ch5/src/main.rs:246). -/
def BIG_STRIDE : Nat := 1 <<< 20

/-- `ProcManager` (src/ch5/src/processor.rs:65): the pid→process map
(`BTreeMap`) and the FIFO ready queue (`VecDeque`). -/
structure ProcManager where
  tasks : List (Nat × Process)
  ready_queue : List Nat
deriving Repr

/-- The scan of `ProcManager::fetch` (src/ch5/src/processor.rs:117–127):
enumerate the ready queue, tracking `(min_stride, min_index)` initialised
to `(usize::MAX, 0)`; a process found in `tasks` with a strictly smaller
stride takes over; pids missing from `tasks` are skipped. -/
def fetchLoop (tasks : List (Nat × Process)) :
    Nat → Nat × Nat → List Nat → Nat × Nat
  | _, acc, [] => acc
  | idx, acc, pid :: rest =>
      match List.lookup pid tasks with
      | some p =>
          if p.stride < acc.1 then fetchLoop tasks (idx + 1) (p.stride, idx) rest
          else fetchLoop tasks (idx + 1) acc rest
      | none => fetchLoop tasks (idx + 1) acc rest

/-- `ProcManager::fetch` (src/ch5/src/processor.rs:111): `None` on an
empty queue, otherwise remove and return the entry at `min_index`. -/
def ProcManager.fetch (m : ProcManager) : Option Nat × ProcManager :=
  if m.ready_queue.isEmpty then (none, m)
  else
    (m.ready_queue.get? (fetchLoop m.tasks 0 (USIZE_MAX, 0) m.ready_queue).2,
      { m with
        ready_queue :=
          m.ready_queue.eraseIdx (fetchLoop m.tasks 0 (USIZE_MAX, 0) m.ready_queue).2 })

/-- The dispatch-time stride update of the main scheduling loop
(src/ch5/src/main.rs:244–248): `task.stride += BIG_STRIDE / task.priority`
on the 64-bit `usize`. -/
def dispatchStride (p : Process) : Process :=
  { p with stride := (p.stride + BIG_STRIDE / p.priority) % 2 ^ 64 }

/-- The stride the scan compares for the `j`-th ready-queue entry
(`usize::MAX` when the pid is missing from `tasks`, which the scan never
selects over a real stride). -/
def strideAt (m : ProcManager) (j : Nat) : Nat :=
  ((List.lookup (m.ready_queue.getD j 0) m.tasks).map Process.stride).getD USIZE_MAX

/-- The pure argmin loop over a stride list, mirroring `fetchLoop` once
every pid is resolved. -/
def argminLoop : Nat → Nat × Nat → List Nat → Nat × Nat
  | _, acc, [] => acc
  | idx, acc, v :: rest =>
      if v < acc.1 then argminLoop (idx + 1) (v, idx) rest
      else argminLoop (idx + 1) acc rest

/-- Stride a pid resolves to in the scan (`usize::MAX` when absent). -/
def resolvedStride (tasks : List (Nat × Process)) (pid : Nat) : Nat :=
  ((List.lookup pid tasks).map Process.stride).getD USIZE_MAX

/-- `fetchLoop` coincides with the pure argmin over resolved strides:
a pid missing from `tasks` resolves to `usize::MAX`, which never beats a
running minimum that is at most `usize::MAX`. -/
theorem fetchLoop_eq_argminLoop (tasks : List (Nat × Process)) :
    ∀ (l : List Nat) (idx ms mi : Nat), ms ≤ USIZE_MAX →
      fetchLoop tasks idx (ms, mi) l =
        argminLoop idx (ms, mi) (l.map (resolvedStride tasks)) := by
  intro l
  induction l with
  | nil => intro idx ms mi _; rfl
  | cons pid rest ih =>
    intro idx ms mi hms
    simp only [fetchLoop, List.map_cons, argminLoop]
    cases hlk : List.lookup pid tasks with
    | none =>
      have hres : resolvedStride tasks pid = USIZE_MAX := by
        simp [resolvedStride, hlk]
      rw [hres, if_neg (by omega)]
      exact ih (idx + 1) ms mi hms
    | some p =>
      dsimp only
      have hres : resolvedStride tasks pid = p.stride := by
        simp [resolvedStride, hlk]
      rw [hres]
      by_cases hlt : p.stride < ms
      · rw [if_pos hlt, if_pos hlt]
        exact ih (idx + 1) p.stride idx (by omega)
      · rw [if_neg hlt, if_neg hlt]
        exact ih (idx + 1) ms mi hms

/-- The argmin loop either keeps its accumulator (when no element beats
`ms`) or lands on the first strict improvement that is minimal overall:
the returned index is the first position of the least element below `ms`. -/
theorem argminLoop_spec (l : List Nat) :
    ∀ (idx ms mi : Nat),
      ((argminLoop idx (ms, mi) l = (ms, mi)) ∧ ∀ k, k < l.length → ms ≤ l.getD k 0)
      ∨ (∃ k, k < l.length ∧
          argminLoop idx (ms, mi) l = (l.getD k 0, idx + k) ∧
          l.getD k 0 < ms ∧
          (∀ j, j < l.length → l.getD k 0 ≤ l.getD j 0) ∧
          (∀ j, j < k → l.getD k 0 < l.getD j 0)) := by
  induction l with
  | nil =>
    intro idx ms mi
    exact Or.inl ⟨rfl, fun k hk => absurd hk (by simp)⟩
  | cons v rest ih =>
    intro idx ms mi
    simp only [argminLoop]
    by_cases hlt : v < ms
    · rw [if_pos hlt]
      rcases ih (idx + 1) v idx with ⟨heq, hall⟩ | ⟨k, hk, heq, hks, hmin, hfirst⟩
      · refine Or.inr ⟨0, by simp, ?_, hlt, ?_, ?_⟩
        · simpa using heq
        · intro j hj
          cases j with
          | zero => exact le_refl _
          | succ j' => exact hall j' (by simpa using hj)
        · intro j hj; omega
      · refine Or.inr ⟨k + 1, by simpa using hk, ?_, by simpa using hks.trans hlt, ?_, ?_⟩
        · have : idx + (k + 1) = idx + 1 + k := by omega
          rw [this]; simpa using heq
        · intro j hj
          cases j with
          | zero => simpa using le_of_lt hks
          | succ j' =>
            simpa using hmin j' (by simpa using hj)
        · intro j hj
          cases j with
          | zero => simpa using hks
          | succ j' => simpa using hfirst j' (by omega)
    · rw [if_neg hlt]
      rcases ih (idx + 1) ms mi with ⟨heq, hall⟩ | ⟨k, hk, heq, hks, hmin, hfirst⟩
      · refine Or.inl ⟨heq, ?_⟩
        intro j hj
        cases j with
        | zero => simpa using not_lt.mp hlt
        | succ j' => exact hall j' (by simpa using hj)
      · refine Or.inr ⟨k + 1, by simpa using hk, ?_, hks, ?_, ?_⟩
        · have : idx + (k + 1) = idx + 1 + k := by omega
          rw [this]; simpa using heq
        · intro j hj
          cases j with
          | zero => simpa using le_of_lt (lt_of_lt_of_le hks (not_lt.mp hlt))
          | succ j' => simpa using hmin j' (by simpa using hj)
        · intro j hj
          cases j with
          | zero => simpa using lt_of_lt_of_le hks (not_lt.mp hlt)
          | succ j' => simpa using hfirst j' (by omega)

/-- `getD` commutes with `map` at in-range indices. -/
theorem getD_map_of_lt {α β : Type} (f : α → β) (l : List α) (j : Nat)
    (d : α) (d' : β) (hj : j < l.length) :
    (l.map f).getD j d' = f (l.getD j d) := by
  induction l generalizing j with
  | nil => simp at hj
  | cons x xs ih =>
    cases j with
    | zero => rfl
    | succ j' => exact ih j' (by simpa using hj)

/-- A successful association-list lookup exhibits a member pair. -/
theorem lookup_mem {β : Type} (l : List (Nat × β)) (a : Nat) (b : β)
    (h : List.lookup a l = some b) : (a, b) ∈ l := by
  induction l with
  | nil => simp [List.lookup] at h
  | cons x xs ih =>
    obtain ⟨k, v⟩ := x
    by_cases heq : a = k
    · subst heq
      simp [List.lookup] at h
      simp [h]
    · have hbeq : (a == k) = false := by simp [heq]
      rw [List.lookup, hbeq] at h
      exact List.mem_cons_of_mem _ (ih h)

/-- A resolved stride never exceeds `usize::MAX` when every stored process
respects the 64-bit bound. -/
theorem resolvedStride_le (tasks : List (Nat × Process))
    (hw : ∀ pr ∈ tasks, (Prod.snd pr).stride < 2 ^ 64) (pid : Nat) :
    resolvedStride tasks pid ≤ USIZE_MAX := by
  unfold resolvedStride USIZE_MAX
  cases hlk : List.lookup pid tasks with
  | none => simp
  | some p =>
    have := hw (pid, p) (lookup_mem tasks pid p hlk)
    simp only [Prod.snd] at this
    simp
    omega

/-- C3: on a non-empty ready queue whose pids are all registered, `fetch`
removes and returns the entry of minimal stride, ties broken by FIFO
position (every strictly earlier entry has a strictly larger stride); and
the dispatch step adds `BIG_STRIDE / priority` to the selected process's
stride, with `BIG_STRIDE = 2^20` (wrapping at the 64-bit `usize` bound,
which the increment never reaches in a run short enough not to overflow). -/
theorem fetch_min_stride_fifo (m : ProcManager)
    (hq : m.ready_queue ≠ [])
    (_hall : ∀ pid ∈ m.ready_queue, (List.lookup pid m.tasks).isSome)
    (hw : ∀ pr ∈ m.tasks, (Prod.snd pr).stride < 2 ^ 64) :
    (∃ i reyn, i < m.ready_queue.length ∧
      m.fetch = (m.ready_queue.get? i, reyn) ∧
      reyn.ready_queue = m.ready_queue.eraseIdx i ∧
      reyn.tasks = m.tasks ∧
      (∀ j, j < m.ready_queue.length → strideAt m i ≤ strideAt m j) ∧
      (∀ j, j < i → strideAt m i < strideAt m j)) ∧
    (∀ p : Process,
      (dispatchStride p).stride = (p.stride + BIG_STRIDE / p.priority) % 2 ^ 64 ∧
      BIG_STRIDE = 2 ^ 20) := by
  refine ⟨?_, fun p => ⟨rfl, by decide⟩⟩
  have hne : ¬(m.ready_queue.isEmpty = true) := by
    cases h : m.ready_queue with
    | nil => exact absurd h hq
    | cons x xs => simp
  have hlen : 0 < m.ready_queue.length := List.length_pos.mpr hq
  have hrw : fetchLoop m.tasks 0 (USIZE_MAX, 0) m.ready_queue
      = argminLoop 0 (USIZE_MAX, 0) (m.ready_queue.map (resolvedStride m.tasks)) :=
    fetchLoop_eq_argminLoop m.tasks m.ready_queue 0 USIZE_MAX 0 (le_refl _)
  have hstrideAt : ∀ j, j < m.ready_queue.length →
      strideAt m j = (m.ready_queue.map (resolvedStride m.tasks)).getD j 0 := by
    intro j hj
    rw [getD_map_of_lt (resolvedStride m.tasks) m.ready_queue j 0 0 hj]
    rfl
  have hfetch : m.fetch =
      (m.ready_queue.get? (fetchLoop m.tasks 0 (USIZE_MAX, 0) m.ready_queue).2,
        { m with
          ready_queue :=
            m.ready_queue.eraseIdx
              (fetchLoop m.tasks 0 (USIZE_MAX, 0) m.ready_queue).2 }) := by
    rw [ProcManager.fetch, if_neg hne]
  rcases argminLoop_spec (m.ready_queue.map (resolvedStride m.tasks)) 0 USIZE_MAX 0 with
    ⟨heq, hge⟩ | ⟨k, hk, heq, _, hmin, hfirst⟩
  · -- the scan never improved on usize::MAX: every resolved stride is
    -- exactly usize::MAX and the kept index is 0, the FIFO head
    have hall_max : ∀ j, j < m.ready_queue.length → strideAt m j = USIZE_MAX := by
      intro j hj
      have h1 := hge j (by simpa using hj)
      have h2 : strideAt m j ≤ USIZE_MAX := by
        rw [hstrideAt j hj, getD_map_of_lt (resolvedStride m.tasks) m.ready_queue j 0 0 hj]
        exact resolvedStride_le m.tasks hw _
      rw [hstrideAt j hj] at h2 ⊢
      omega
    have hidx : (fetchLoop m.tasks 0 (USIZE_MAX, 0) m.ready_queue).2 = 0 := by
      rw [hrw, heq]
    refine ⟨0, { m with ready_queue := m.ready_queue.eraseIdx 0 }, hlen, ?_, rfl, rfl, ?_, ?_⟩
    · rw [hfetch, hidx]
    · intro j hj
      rw [hall_max 0 hlen, hall_max j hj]
    · intro j hj
      omega
  · have hidx : (fetchLoop m.tasks 0 (USIZE_MAX, 0) m.ready_queue).2 = k := by
      rw [hrw, heq]
      exact Nat.zero_add k
    refine ⟨k, { m with ready_queue := m.ready_queue.eraseIdx k },
      by simpa using hk, ?_, rfl, rfl, ?_, ?_⟩
    · rw [hfetch, hidx]
    · intro j hj
      have h1 := hmin j (by simpa using hj)
      rw [hstrideAt k (by simpa using hk), hstrideAt j hj]
      simpa using h1
    · intro j hj
      have hjlen : j < m.ready_queue.length := by
        have := by simpa using hk
        omega
      have h1 := hfirst j hj
      rw [hstrideAt k (by simpa using hk), hstrideAt j hjlen]
      simpa using h1

/-- A concrete process with the given stride (the other fields are the
`from_elf` defaults). -/
def procWithStride (s : Nat) : Process :=
  { entry := 0, sp := 1 <<< 38, address_space := AddressSpace.new,
    heap_bottom := 0, program_brk := 0, stride := s, priority := 16 }

/-- Witness for `fetch_min_stride_fifo`: a two-process manager where the
later, smaller-stride process is fetched. -/
theorem fetch_min_stride_fifo_witness :
    (∃ i reyn, i < ([7, 9] : List Nat).length ∧
      (ProcManager.fetch ⟨[(7, procWithStride 50), (9, procWithStride 20)], [7, 9]⟩)
        = (([7, 9] : List Nat).get? i, reyn) ∧
      reyn.ready_queue = ([7, 9] : List Nat).eraseIdx i ∧
      reyn.tasks = [(7, procWithStride 50), (9, procWithStride 20)] ∧
      (∀ j, j < ([7, 9] : List Nat).length →
        strideAt ⟨[(7, procWithStride 50), (9, procWithStride 20)], [7, 9]⟩ i ≤
          strideAt ⟨[(7, procWithStride 50), (9, procWithStride 20)], [7, 9]⟩ j) ∧
      (∀ j, j < i →
        strideAt ⟨[(7, procWithStride 50), (9, procWithStride 20)], [7, 9]⟩ i <
          strideAt ⟨[(7, procWithStride 50), (9, procWithStride 20)], [7, 9]⟩ j)) ∧
    (∀ p : Process,
      (dispatchStride p).stride = (p.stride + BIG_STRIDE / p.priority) % 2 ^ 64 ∧
      BIG_STRIDE = 2 ^ 20) :=
  fetch_min_stride_fifo ⟨[(7, procWithStride 50), (9, procWithStride 20)], [7, 9]⟩
    (by decide) (by decide) (by decide)

/-! ### Claim C2 — the stride comparison is not wrapping-aware

The spec asserts the comparison in `fetch` is a wrapping (signed)
subtraction, so that two strides within `BIG_STRIDE / 2` of each other
order correctly across `u64` overflow.  The source compares with plain
unsigned `<` (src/ch5/src/processor.rs:122), so a process whose stride
accumulator has just wrapped is treated as globally smallest. -/

/-- Modelled from the spec (§9): the wrapping-aware order — `a` precedes
`b` iff the `u64` difference `a - b`, interpreted as a signed 64-bit
value, is negative. -/
def strideWrapLt (a b : Nat) : Bool :=
  decide (2 ^ 63 ≤ (a + 2 ^ 64 - b) % 2 ^ 64)

/-- C2 counterexample: strides `2^64 - 100` (pid 0, FIFO head, has just
wrapped short of zero) and `100` (pid 1) differ by `200 < BIG_STRIDE / 2`
under wrapping subtraction, and the wrapping-aware order makes pid 0
smaller; yet `fetch` selects pid 1 — the plain unsigned minimum. -/
theorem fetch_not_wrapping_counterexample :
    strideWrapLt (2 ^ 64 - 100) 100 = true ∧
      (100 + 2 ^ 64 - (2 ^ 64 - 100)) % 2 ^ 64 < BIG_STRIDE / 2 ∧
      (ProcManager.fetch
        ⟨[(0, procWithStride (2 ^ 64 - 100)), (1, procWithStride 100)], [0, 1]⟩).1
        = some 1 := by
  refine ⟨by decide, by decide, ?_⟩
  decide

/-- C2 (amended): between two ready processes `fetch` selects the one
with the smaller stride in plain unsigned comparison (ties favour the
earlier FIFO position); the comparison is not wrapping-aware, so relative
order is not preserved once an accumulator wraps around. -/
theorem fetch_pair_unsigned_compare (m : ProcManager) (p1 p2 : Nat)
    (a b : Process)
    (hqeq : m.ready_queue = [p1, p2])
    (h1 : List.lookup p1 m.tasks = some a)
    (h2 : List.lookup p2 m.tasks = some b)
    (ha : a.stride < 2 ^ 64) (hb : b.stride < 2 ^ 64) :
    m.fetch = (some (if a.stride ≤ b.stride then p1 else p2),
      { m with ready_queue := [if a.stride ≤ b.stride then p2 else p1] }) := by
  have hne : ¬(m.ready_queue.isEmpty = true) := by rw [hqeq]; simp
  rw [ProcManager.fetch, if_neg hne, hqeq]
  simp only [fetchLoop, h1, h2, USIZE_MAX]
  rcases le_or_lt a.stride b.stride with hab | hab
  · rw [if_pos hab, if_pos hab]
    split_ifs <;>
      first
        | rfl
        | (exfalso; omega)
  · rw [if_neg (not_le.mpr hab), if_neg (not_le.mpr hab)]
    split_ifs <;>
      first
        | rfl
        | (exfalso; omega)

/-- Witness for `fetch_pair_unsigned_compare`: pids 3 (stride 8) and 4
(stride 5); `fetch` selects pid 4. -/
theorem fetch_pair_unsigned_compare_witness :
    (ProcManager.fetch ⟨[(3, procWithStride 8), (4, procWithStride 5)], [3, 4]⟩)
      = (some (if (procWithStride 8).stride ≤ (procWithStride 5).stride then 3 else 4),
        { tasks := [(3, procWithStride 8), (4, procWithStride 5)],
          ready_queue :=
            [if (procWithStride 8).stride ≤ (procWithStride 5).stride then 4 else 3] }) :=
  fetch_pair_unsigned_compare ⟨[(3, procWithStride 8), (4, procWithStride 5)], [3, 4]⟩
    3 4 (procWithStride 8) (procWithStride 5) rfl (by decide) (by decide)
    (by decide) (by decide)

/-! ## Claim C4 — `Process::from_elf` (src/ch5/src/process.rs:111–205) -/

/-- One ELF program header, reduced to the fields `from_elf` reads:
whether `get_type()` is `Load`, the file offset/size, the virtual
address/memory size, and the segment R/W/X flags. -/
structure PHeader where
  isLoad : Bool
  offset : Nat
  file_size : Nat
  virtual_addr : Nat
  mem_size : Nat
  is_execute : Bool
  is_write : Bool
  is_read : Bool
deriving DecidableEq, Repr

/-- The ELF header fields checked by `from_elf`: 64-bit header
(`HeaderPt2::Header64`), type `Executable`, machine `RISC_V`, and the
entry point. -/
structure ElfHeader where
  is64 : Bool
  isExecutable : Bool
  isRiscv : Bool
  entry_point : Nat
deriving DecidableEq, Repr

/-- An ELF file: header plus program headers (the raw bytes copied by
`map` are not modelled). -/
structure ElfFile where
  header : ElfHeader
  programs : List PHeader
deriving DecidableEq, Repr

/-- The LOAD program headers, in file order. -/
def loadSegments (elf : ElfFile) : List PHeader :=
  elf.programs.filter (·.isLoad)

/-- `max_end_va`: the running maximum of `virtual_addr + mem_size` over
the LOAD segments, starting from 0 (src/ch5/src/process.rs:127,142–144). -/
def maxEndVa (elf : ElfFile) : Nat :=
  (loadSegments elf).foldl (fun acc ph => max acc (ph.virtual_addr + ph.mem_size)) 0

/-- The per-segment PTE flags `U?X?W?R V` (src/ch5/src/process.rs:150–159). -/
def segFlags (ph : PHeader) : VmFlags :=
  ⟨true, ph.is_read, ph.is_write, ph.is_execute, true⟩

/-- The address space after mapping every LOAD segment over
`floor(virtual_addr) .. ceil(virtual_addr + mem_size)`
(src/ch5/src/process.rs:161–166). -/
def loadMappedSpace (elf : ElfFile) : AddressSpace :=
  (loadSegments elf).foldl
    (fun sp ph =>
      sp.map (ph.virtual_addr / 4096)
        ((ph.virtual_addr + ph.mem_size + 4095) / 4096) (segFlags ph))
    AddressSpace.new

/-- `Process::from_elf` (src/ch5/src/process.rs:111): reject non-64-bit /
non-executable / non-RISC-V ELFs; reject (the source panics on) a LOAD
segment whose file offset and virtual address disagree modulo the page
size; map the LOAD segments; set `heap_bottom = program_brk` to the
page-rounded-up `max_end_va`; map a 2-page user stack at the top of the
user address space with `U_WRV` and share the portal; `sp = 1 << 38`,
`stride = 0`, `priority = 16`. -/
def from_elf (elf : ElfFile) : Option Process :=
  if ¬(elf.header.is64 ∧ elf.header.isExecutable ∧ elf.header.isRiscv) then none
  else if ¬((loadSegments elf).all
      (fun ph => ph.offset % 4096 == ph.virtual_addr % 4096)) then none
  else
    let heap_bottom := ((maxEndVa elf + 4095) / 4096) * 4096
    let space :=
      AddressSpace.mapPortal
        ( AddressSpace.map_extern (loadMappedSpace elf) ((1 <<< 26) - 2) (1 <<< 26) flagsUWRV)
    some
      { entry := elf.header.entry_point, sp := 1 <<< 38, address_space := space,
        heap_bottom := heap_bottom, program_brk := heap_bottom,
        stride := 0, priority := 16 }

/-- C4: every ELF accepted by `from_elf` yields a process whose
`heap_bottom` and `program_brk` are both the page-rounded-up end of the
highest LOAD segment; whose address space maps, above the LOAD segments,
exactly the two stack pages at VPNs `2^26 - 2` and `2^26 - 1` with
`U_WRV`; and whose initial `sp` is `1 << 38`, one page past the base of
the topmost stack page (i.e. the end of the 2-page stack region). -/
theorem from_elf_heap_stack_sp (elf : ElfFile) (p : Process)
    (h : from_elf elf = some p) :
    p.heap_bottom = ((maxEndVa elf + 4095) / 4096) * 4096 ∧
      p.program_brk = p.heap_bottom ∧
      p.address_space.pages = (loadMappedSpace elf).pages ++
        [⟨(1 <<< 26) - 2, flagsUWRV, false⟩, ⟨(1 <<< 26) - 1, flagsUWRV, false⟩] ∧
      p.sp = 1 <<< 38 ∧
      1 <<< 38 = ((1 <<< 26) - 1) * 4096 + 4096 := by
  rw [from_elf] at h
  split_ifs at h
  simp only [Option.some.injEq] at h
  subst h
  refine ⟨rfl, rfl, ?_, rfl, by decide⟩
  have hpages : pagesIn 67108862 67108864 = [67108862, 67108863] := by decide
  simp [AddressSpace.mapPortal, AddressSpace.map_extern, hpages]

/-- Witness for `from_elf_heap_stack_sp`: a one-segment RISC-V executable
whose single LOAD segment ends at `0x1200`, so the heap bottom is
`0x2000`. -/
theorem from_elf_heap_stack_sp_witness :
    (Process.mk 4096 (1 <<< 38)
        ⟨[⟨1, ⟨true, true, true, true, true⟩, true⟩,
          ⟨(1 <<< 26) - 2, flagsUWRV, false⟩,
          ⟨(1 <<< 26) - 1, flagsUWRV, false⟩], true⟩
        8192 8192 0 16).heap_bottom =
      ((maxEndVa ⟨⟨true, true, true, 4096⟩,
        [⟨true, 4096, 256, 4096, 512, true, true, true⟩]⟩ + 4095) / 4096) * 4096 ∧
    (Process.mk 4096 (1 <<< 38)
        ⟨[⟨1, ⟨true, true, true, true, true⟩, true⟩,
          ⟨(1 <<< 26) - 2, flagsUWRV, false⟩,
          ⟨(1 <<< 26) - 1, flagsUWRV, false⟩], true⟩
        8192 8192 0 16).program_brk =
      (Process.mk 4096 (1 <<< 38)
        ⟨[⟨1, ⟨true, true, true, true, true⟩, true⟩,
          ⟨(1 <<< 26) - 2, flagsUWRV, false⟩,
          ⟨(1 <<< 26) - 1, flagsUWRV, false⟩], true⟩
        8192 8192 0 16).heap_bottom ∧
    (Process.mk 4096 (1 <<< 38)
        ⟨[⟨1, ⟨true, true, true, true, true⟩, true⟩,
          ⟨(1 <<< 26) - 2, flagsUWRV, false⟩,
          ⟨(1 <<< 26) - 1, flagsUWRV, false⟩], true⟩
        8192 8192 0 16).address_space.pages =
      (loadMappedSpace ⟨⟨true, true, true, 4096⟩,
        [⟨true, 4096, 256, 4096, 512, true, true, true⟩]⟩).pages ++
        [⟨(1 <<< 26) - 2, flagsUWRV, false⟩, ⟨(1 <<< 26) - 1, flagsUWRV, false⟩] ∧
    (Process.mk 4096 (1 <<< 38)
        ⟨[⟨1, ⟨true, true, true, true, true⟩, true⟩,
          ⟨(1 <<< 26) - 2, flagsUWRV, false⟩,
          ⟨(1 <<< 26) - 1, flagsUWRV, false⟩], true⟩
        8192 8192 0 16).sp = 1 <<< 38 ∧
    1 <<< 38 = ((1 <<< 26) - 1) * 4096 + 4096 :=
  from_elf_heap_stack_sp
    ⟨⟨true, true, true, 4096⟩, [⟨true, 4096, 256, 4096, 512, true, true, true⟩]⟩
    (Process.mk 4096 (1 <<< 38)
      ⟨[⟨1, ⟨true, true, true, true, true⟩, true⟩,
        ⟨(1 <<< 26) - 2, flagsUWRV, false⟩,
        ⟨(1 <<< 26) - 1, flagsUWRV, false⟩], true⟩
      8192 8192 0 16)
    (by decide)

/-! ## Claim C6 — `sbrk` (src/ch5/src/process.rs:213–241, main.rs:682–689) -/

/-- `Process::change_program_brk` (src/ch5/src/process.rs:213): `None`
when the requested break would fall below `heap_bottom`; otherwise map
(growth) or unmap (shrinkage) the pages between the old and new
page-rounded break with `U_WRV`, update `program_brk`, and return the old
break. -/
def change_program_brk (p : Process) (size : Int) : Option (Nat × Process) :=
  let old_brk := p.program_brk
  let new_brk_i : Int := (p.program_brk : Int) + size
  if new_brk_i < (p.heap_bottom : Int) then none
  else
    let new_brk := new_brk_i.toNat
    let old_brk_ceil := (old_brk + 4095) / 4096
    let new_brk_ceil := (new_brk + 4095) / 4096
    let space :=
      if 0 < size then
        if old_brk_ceil < new_brk_ceil then
          p.address_space.map old_brk_ceil new_brk_ceil flagsUWRV
        else p.address_space
      else if size < 0 then
        if new_brk_ceil < old_brk_ceil then
          p.address_space.unmap new_brk_ceil old_brk_ceil
        else p.address_space
      else p.address_space
    some (old_brk, { p with program_brk := new_brk, address_space := space })

/-- `SyscallContext::sbrk` (src/ch5/src/main.rs:682): `-1` on failure,
the old break on success. -/
def sbrk (p : Process) (size : Int) : Int × Process :=
  match change_program_brk p size with
  | some (old, p') => ((old : Int), p')
  | none => (-1, p)

/-- Mapping an empty VPN range leaves the address space unchanged. -/
theorem map_empty_range (a : AddressSpace) (s e : Nat) (f : VmFlags)
    (he : e ≤ s) : a.map s e f = a := by
  simp [AddressSpace.map, pagesIn, Nat.sub_eq_zero_of_le he]

/-- Unmapping an empty VPN range leaves the address space unchanged. -/
theorem unmap_empty_range (a : AddressSpace) (s e : Nat) (he : e ≤ s) :
    a.unmap s e = a := by
  have hfil : a.pages.filter
      (fun m => decide (m.vpn < s) || decide (e ≤ m.vpn)) = a.pages := by
    apply List.filter_eq_self.mpr
    intro m _
    simp only [Bool.or_eq_true, decide_eq_true_eq]
    omega
  simp [AddressSpace.unmap, hfil]

/-- C6: `sbrk(delta)` returns `-1` with the process untouched exactly when
`program_brk + delta < heap_bottom`; otherwise it returns the old break,
sets `program_brk` to the new break, and maps (for growth) or unmaps (for
shrinkage) with flags `U_WRV` exactly the pages between the old and new
page-rounded break. -/
theorem sbrk_spec (p : Process) (delta : Int) :
    (sbrk p delta = (-1, p) ↔ (p.program_brk : Int) + delta < (p.heap_bottom : Int)) ∧
    ((p.heap_bottom : Int) ≤ (p.program_brk : Int) + delta →
      (sbrk p delta).1 = (p.program_brk : Int) ∧
      (((sbrk p delta).2.program_brk : Int) = (p.program_brk : Int) + delta) ∧
      (sbrk p delta).2.heap_bottom = p.heap_bottom ∧
      (sbrk p delta).2.address_space =
        (if 0 < delta then
          p.address_space.map ((p.program_brk + 4095) / 4096)
            ((((p.program_brk : Int) + delta).toNat + 4095) / 4096) flagsUWRV
        else if delta < 0 then
          p.address_space.unmap ((((p.program_brk : Int) + delta).toNat + 4095) / 4096)
            ((p.program_brk + 4095) / 4096)
        else p.address_space)) := by
  by_cases hc : (p.program_brk : Int) + delta < (p.heap_bottom : Int)
  · have hs : sbrk p delta = (-1, p) := by
      simp only [sbrk, change_program_brk]
      rw [if_pos hc]
    exact ⟨by simp [hs, hc], fun hge => absurd hc (by omega)⟩
  · have hnn : (0 : Int) ≤ (p.program_brk : Int) + delta := by
      have := Int.natCast_nonneg p.heap_bottom
      omega
    have hs : sbrk p delta =
        ((p.program_brk : Int),
          { p with
            program_brk := ((p.program_brk : Int) + delta).toNat,
            address_space :=
              if 0 < delta then
                if (p.program_brk + 4095) / 4096 <
                    ((((p.program_brk : Int) + delta).toNat + 4095) / 4096) then
                  p.address_space.map ((p.program_brk + 4095) / 4096)
                    ((((p.program_brk : Int) + delta).toNat + 4095) / 4096) flagsUWRV
                else p.address_space
              else if delta < 0 then
                if ((((p.program_brk : Int) + delta).toNat + 4095) / 4096) <
                    (p.program_brk + 4095) / 4096 then
                  p.address_space.unmap
                    ((((p.program_brk : Int) + delta).toNat + 4095) / 4096)
                    ((p.program_brk + 4095) / 4096)
                else p.address_space
              else p.address_space }) := by
      simp only [sbrk, change_program_brk]
      rw [if_neg hc]
    constructor
    · rw [hs]
      constructor
      · intro hpair
        have h1 := congrArg Prod.fst hpair
        simp only at h1
        have := Int.natCast_nonneg p.program_brk
        omega
      · intro hlt; exact absurd hlt hc
    · intro _
      refine ⟨by rw [hs], ?_, by rw [hs], ?_⟩
      · rw [hs]
        simp only
        exact Int.toNat_of_nonneg hnn
      · rw [hs]
        simp only
        by_cases hpos : 0 < delta
        · rw [if_pos hpos, if_pos hpos]
          by_cases hcl : (p.program_brk + 4095) / 4096 <
              ((((p.program_brk : Int) + delta).toNat + 4095) / 4096)
          · rw [if_pos hcl]
          · rw [if_neg hcl, map_empty_range _ _ _ _ (by omega)]
        · rw [if_neg hpos, if_neg hpos]
          by_cases hneg : delta < 0
          · rw [if_pos hneg, if_pos hneg]
            by_cases hcl : ((((p.program_brk : Int) + delta).toNat + 4095) / 4096) <
                (p.program_brk + 4095) / 4096
            · rw [if_pos hcl]
            · rw [if_neg hcl, unmap_empty_range _ _ _ (by omega)]
          · rw [if_neg hneg, if_neg hneg]

/-- Witness for `sbrk_spec`: a process with `heap_bottom = program_brk =
0x2000` and `delta = 100`. -/
theorem sbrk_spec_witness :
    (sbrk (Process.mk 0 0 AddressSpace.new 8192 8192 0 16) 100 =
        (-1, Process.mk 0 0 AddressSpace.new 8192 8192 0 16) ↔
      ((Process.mk 0 0 AddressSpace.new 8192 8192 0 16).program_brk : Int) + 100 <
        ((Process.mk 0 0 AddressSpace.new 8192 8192 0 16).heap_bottom : Int)) ∧
    (((Process.mk 0 0 AddressSpace.new 8192 8192 0 16).heap_bottom : Int) ≤
        ((Process.mk 0 0 AddressSpace.new 8192 8192 0 16).program_brk : Int) + 100 →
      (sbrk (Process.mk 0 0 AddressSpace.new 8192 8192 0 16) 100).1 =
        ((Process.mk 0 0 AddressSpace.new 8192 8192 0 16).program_brk : Int) ∧
      (((sbrk (Process.mk 0 0 AddressSpace.new 8192 8192 0 16) 100).2.program_brk : Int) =
        ((Process.mk 0 0 AddressSpace.new 8192 8192 0 16).program_brk : Int) + 100) ∧
      (sbrk (Process.mk 0 0 AddressSpace.new 8192 8192 0 16) 100).2.heap_bottom =
        (Process.mk 0 0 AddressSpace.new 8192 8192 0 16).heap_bottom ∧
      (sbrk (Process.mk 0 0 AddressSpace.new 8192 8192 0 16) 100).2.address_space =
        (if (0 : Int) < 100 then
          AddressSpace.map
            (Process.mk 0 0 AddressSpace.new 8192 8192 0 16).address_space
            (((Process.mk 0 0 AddressSpace.new 8192 8192 0 16).program_brk + 4095) / 4096)
            (((((Process.mk 0 0 AddressSpace.new 8192 8192 0 16).program_brk : Int) + 100).toNat
                + 4095) / 4096)
            flagsUWRV
        else if (100 : Int) < 0 then
          AddressSpace.unmap
            (Process.mk 0 0 AddressSpace.new 8192 8192 0 16).address_space
            (((((Process.mk 0 0 AddressSpace.new 8192 8192 0 16).program_brk : Int) + 100).toNat
                + 4095) / 4096)
            (((Process.mk 0 0 AddressSpace.new 8192 8192 0 16).program_brk + 4095) / 4096)
        else (Process.mk 0 0 AddressSpace.new 8192 8192 0 16).address_space)) :=
  sbrk_spec (Process.mk 0 0 AddressSpace.new 8192 8192 0 16) 100

/-! ## Claim C7 — `mmap` (src/ch4/src/main.rs:642–709)

`prot` is modelled as the 32-bit pattern of the `i32` argument (a
negative `prot` is a pattern `≥ 2^31`); `prot & !0x7` is the Nat mask
with `0xFFFFFFF8`. -/

/-- The `mmap` permission flags `U` plus the R/W/X bits of `prot`
(src/ch4/src/main.rs:673–677). -/
def mmapFlags (prot : Nat) : VmFlags :=
  ⟨true, decide (prot &&& 1 ≠ 0), decide (prot &&& 2 ≠ 0),
    decide (prot &&& 4 ≠ 0), true⟩

/-- `SyscallContext::mmap` (src/ch4/src/main.rs:642) acting on the
process's address space: reject a non-page-aligned `addr`, a `prot` with
bits outside 0..2 or equal to 0; accept trivially for `len = 0`; reject
when any of the `ceil(len / 4096)` pages translates under the `__V` check
mask; otherwise map the pages (zero-filled anonymous memory) and
return 0. -/
def mmap (a : AddressSpace) (addr len prot : Nat) : Int × AddressSpace :=
  if addr % 4096 ≠ 0 then (-1, a)
  else if prot &&& 0xFFFFFFF8 ≠ 0 ∨ prot = 0 then (-1, a)
  else if len = 0 then (0, a)
  else
    if (List.range ((len + 4096 - 1) / 4096)).any
        (fun i => a.translateOk (addr + i * 4096) flagsV) then (-1, a)
    else
      (0, a.map (addr / 4096)
        ((addr + ((len + 4096 - 1) / 4096) * 4096 + 4095) / 4096)
        (mmapFlags prot))

/-- For a 32-bit pattern, `prot & !0x7 == 0` says exactly that no bit
outside 0..2 is set, i.e. `prot < 8`. -/
theorem land_hi_eq_zero_iff (x : Nat) (hx : x < 2 ^ 32) :
    (x &&& 0xFFFFFFF8 = 0) ↔ x < 8 := by
  constructor
  · intro h0
    by_contra hge
    push_neg at hge
    have hxne : x ≠ 0 := by omega
    have hi3 : 3 ≤ Nat.log2 x := (Nat.le_log2 hxne).mpr (by omega)
    have hi32 : Nat.log2 x < 32 := (Nat.log2_lt hxne).mpr hx
    have hxbit : x.testBit (Nat.log2 x) = true := by
      have h1 : 2 ^ Nat.log2 x ≤ x := Nat.log2_self_le hxne
      have h2 : x < 2 ^ (Nat.log2 x + 1) := Nat.lt_log2_self
      have hdiv : x / 2 ^ Nat.log2 x = 1 := by
        apply Nat.div_eq_of_lt_le
        · simpa using h1
        · rw [pow_succ] at h2; omega
      rw [Nat.testBit_to_div_mod, hdiv]
      decide
    have hMbit : (0xFFFFFFF8 : Nat).testBit (Nat.log2 x) = true := by
      have h8 : 8 ≤ 2 ^ Nat.log2 x := by
        calc (8 : Nat) = 2 ^ 3 := by norm_num
        _ ≤ 2 ^ Nat.log2 x := Nat.pow_le_pow_right (by norm_num) hi3
      have hab : 2 ^ Nat.log2 x * 2 ^ (32 - Nat.log2 x) = 2 ^ 32 := by
        rw [← pow_add]; congr 1; omega
      have hsplit : 2 ^ Nat.log2 x * (2 ^ (32 - Nat.log2 x) - 1) + 2 ^ Nat.log2 x
          = 2 ^ 32 := by
        rw [← Nat.mul_succ]
        have hb1 : 1 ≤ 2 ^ (32 - Nat.log2 x) := Nat.one_le_two_pow
        have hb : Nat.succ (2 ^ (32 - Nat.log2 x) - 1) = 2 ^ (32 - Nat.log2 x) := by
          omega
        rw [hb]
        exact hab
      have hdiv : (0xFFFFFFF8 : Nat) / 2 ^ Nat.log2 x = 2 ^ (32 - Nat.log2 x) - 1 := by
        have heq : (0xFFFFFFF8 : Nat)
            = 2 ^ Nat.log2 x * (2 ^ (32 - Nat.log2 x) - 1) + (2 ^ Nat.log2 x - 8) := by
          have : (0xFFFFFFF8 : Nat) = 2 ^ 32 - 8 := by norm_num
          omega
        rw [heq, Nat.mul_add_div (by omega)]
        rw [Nat.div_eq_of_lt (by omega)]
        omega
      rw [Nat.testBit_to_div_mod, hdiv]
      have h2dvd : 2 ∣ 2 ^ (32 - Nat.log2 x) := dvd_pow_self 2 (by omega)
      have hb1 : 1 ≤ 2 ^ (32 - Nat.log2 x) := Nat.one_le_two_pow
      simp only [decide_eq_true_eq]
      omega
    have hc : (x &&& 0xFFFFFFF8).testBit (Nat.log2 x) = false := by
      rw [h0]; exact Nat.zero_testBit _
    rw [Nat.testBit_and, hxbit, hMbit] at hc
    simp at hc
  · intro h8
    interval_cases x <;> decide

/-- C7: `mmap` returns `-1` exactly when `addr` is not page-aligned, or
`prot` has a bit outside bits 0..2 (`8 ≤ prot` as a 32-bit pattern), or
`prot = 0`, or `len > 0` and one of the `ceil(len / 4096)` pages starting
at `addr` already translates; otherwise it returns 0, appending (for
`len > 0`) exactly those pages as kernel-owned zeroed mappings with flags
`U` + the R/W/X bits of `prot` + `V`, and leaving the space untouched for
`len = 0`. -/
theorem mmap_spec (a : AddressSpace) (addr len prot : Nat)
    (hprot : prot < 2 ^ 32) :
    ((mmap a addr len prot).1 = -1 ↔
      (addr % 4096 ≠ 0 ∨ 8 ≤ prot ∨ prot = 0 ∨
        (0 < len ∧ ∃ i, i < (len + 4096 - 1) / 4096 ∧
          a.translateOk (addr + i * 4096) flagsV = true))) ∧
    ((mmap a addr len prot).1 ≠ -1 → (mmap a addr len prot).1 = 0) ∧
    ((mmap a addr len prot).1 = 0 → 0 < len →
      (mmap a addr len prot).2.pages = a.pages ++
        (pagesIn (addr / 4096) (addr / 4096 + (len + 4096 - 1) / 4096)).map
          (fun p => ⟨p, mmapFlags prot, true⟩)) ∧
    ((mmap a addr len prot).1 = 0 → len = 0 → (mmap a addr len prot).2 = a) := by
  by_cases h1 : addr % 4096 ≠ 0
  · have hm : mmap a addr len prot = (-1, a) := by rw [mmap, if_pos h1]
    rw [hm]
    exact ⟨⟨fun _ => Or.inl h1, fun _ => rfl⟩,
      fun hne => absurd rfl hne,
      fun hz => absurd hz (by norm_num),
      fun hz => absurd hz (by norm_num)⟩
  · push_neg at h1
    by_cases h2 : prot &&& 0xFFFFFFF8 ≠ 0 ∨ prot = 0
    · have hm : mmap a addr len prot = (-1, a) := by
        rw [mmap, if_neg (by omega), if_pos h2]
      have hbad : 8 ≤ prot ∨ prot = 0 := by
        rcases h2 with h2 | h2
        · left
          by_contra hlt
          exact h2 ((land_hi_eq_zero_iff prot hprot).mpr (by omega))
        · right; exact h2
      rw [hm]
      exact ⟨⟨fun _ => Or.inr (by tauto), fun _ => rfl⟩,
        fun hne => absurd rfl hne,
        fun hz => absurd hz (by norm_num),
        fun hz => absurd hz (by norm_num)⟩
    · push_neg at h2
      obtain ⟨hmask, hnz⟩ := h2
      have hlow : prot < 8 := (land_hi_eq_zero_iff prot hprot).mp hmask
      by_cases h3 : len = 0
      · have hm : mmap a addr len prot = (0, a) := by
          rw [mmap, if_neg (by omega), if_neg (by tauto), if_pos h3]
        rw [hm]
        refine ⟨⟨by norm_num, ?_⟩, fun _ => rfl, fun _ hlen => by omega, fun _ _ => rfl⟩
        rintro (hc | hc | hc | ⟨hc, _⟩) <;> omega
      · by_cases h4 : (List.range ((len + 4096 - 1) / 4096)).any
            (fun i => a.translateOk (addr + i * 4096) flagsV) = true
        · have hm : mmap a addr len prot = (-1, a) := by
            rw [mmap, if_neg (by omega), if_neg (by tauto), if_neg h3, if_pos h4]
          obtain ⟨i, hmem, hi⟩ := List.any_eq_true.mp h4
          rw [hm]
          refine ⟨⟨fun _ => Or.inr (Or.inr (Or.inr ⟨by omega, i, ?_, hi⟩)),
            fun _ => rfl⟩,
            fun hne => absurd rfl hne,
            fun hz => absurd hz (by norm_num),
            fun hz => absurd hz (by norm_num)⟩
          exact List.mem_range.mp hmem
        · have hm : mmap a addr len prot =
              (0, a.map (addr / 4096)
                ((addr + ((len + 4096 - 1) / 4096) * 4096 + 4095) / 4096)
                (mmapFlags prot)) := by
            rw [mmap, if_neg (by omega), if_neg (by tauto), if_neg h3, if_neg h4]
          have hend : (addr + ((len + 4096 - 1) / 4096) * 4096 + 4095) / 4096 =
              addr / 4096 + (len + 4096 - 1) / 4096 := by
            omega
          rw [hm]
          refine ⟨⟨by norm_num, ?_⟩, fun _ => rfl, fun _ _ => ?_, fun _ hlen => by omega⟩
          · rintro (hc | hc | hc | ⟨_, i, hilt, hitr⟩)
            · omega
            · omega
            · omega
            · exact absurd (List.any_eq_true.mpr ⟨i, List.mem_range.mpr hilt, hitr⟩) h4
          · rw [AddressSpace.map, hend]

/-- Witness for `mmap_spec`: mapping 100 bytes read-write at `addr =
0x1000` in an empty space. -/
theorem mmap_spec_witness :
    ((mmap AddressSpace.new 4096 100 3).1 = -1 ↔
      ((4096 : Nat) % 4096 ≠ 0 ∨ 8 ≤ 3 ∨ (3 : Nat) = 0 ∨
        (0 < 100 ∧ ∃ i, i < (100 + 4096 - 1) / 4096 ∧
          AddressSpace.new.translateOk (4096 + i * 4096) flagsV = true))) ∧
    ((mmap AddressSpace.new 4096 100 3).1 ≠ -1 →
      (mmap AddressSpace.new 4096 100 3).1 = 0) ∧
    ((mmap AddressSpace.new 4096 100 3).1 = 0 → 0 < 100 →
      (mmap AddressSpace.new 4096 100 3).2.pages = AddressSpace.new.pages ++
        (pagesIn (4096 / 4096) (4096 / 4096 + (100 + 4096 - 1) / 4096)).map
          (fun p => ⟨p, mmapFlags 3, true⟩)) ∧
    ((mmap AddressSpace.new 4096 100 3).1 = 0 → (100 : Nat) = 0 →
      (mmap AddressSpace.new 4096 100 3).2 = AddressSpace.new) :=
  mmap_spec AddressSpace.new 4096 100 3 (by norm_num)

/-! ## Claim C8 — dispatcher: signals after syscall (src/ch8/src/main.rs:226–266) -/

/-- The saved user context as the dispatcher touches it: the `a0`
return-value register and `sepc` (the remaining registers are opaque to
the dispatcher arm being verified). -/
structure LocalContext where
  a0 : Int
  sepc : Nat
deriving DecidableEq, Repr

/-- `move_next`: advance `sepc` past the `ecall` instruction. -/
def LocalContext.move_next (c : LocalContext) : LocalContext :=
  { c with sepc := c.sepc + 4 }

/-- `tg_syscall::SyscallResult`: `Done(ret)` or `Unsupported(id)`. -/
inductive SyscallResult where
  | done (ret : Int)
  | unsupported (id : Nat)
deriving DecidableEq, Repr

/-- Modelled from the spec (§4.5): `tg_signal::SignalResult` of the
external `tg_signal` crate.  The dispatcher only distinguishes
`ProcessKilled(exit_code)` from every other outcome (handled / nothing
pending), so the rest collapses into one constructor. -/
inductive SignalResult where
  | processKilled (exit_code : Int)
  | noAction
deriving DecidableEq, Repr

/-- The syscall ids the dispatcher arm distinguishes (their numeric
encodings live in the external `tg-syscall` crate; `other` covers every
remaining id). -/
inductive SyscallId where
  | exitId
  | semaphoreDown
  | mutexLock
  | condvarWait
  | other (n : Nat)
deriving DecidableEq, Repr

/-- What the dispatcher does with the current thread afterwards. -/
inductive ThreadDisposition where
  | exited (code : Int)
  | suspend
  | blocked
deriving DecidableEq, Repr

/-- The `UserEnvCall` arm of the ch8 scheduling loop
(src/ch8/src/main.rs:226–266): `move_next`, run the syscall handler
(whose result is `ret`; it acts on kernel state, not on the saved
context), then `handle_signals` on the current process, then branch:
`ProcessKilled` → exit with that code; otherwise `Done(ret)` → exit for
`EXIT`, write `a0` and block/suspend for the three blocking syscalls
(`-1` = blocked), write `a0` and suspend for the rest; `Unsupported` →
exit with `-2`. -/
def dispatchUserEnvCall (handleSignals : LocalContext → SignalResult × LocalContext)
    (id : SyscallId) (ret : SyscallResult) (ctx : LocalContext) :
    LocalContext × ThreadDisposition :=
  let sig := handleSignals ctx.move_next
  match sig.1 with
  | .processKilled c => (sig.2, .exited c)
  | .noAction =>
    match ret with
    | .done r =>
      match id with
      | .exitId => (sig.2, .exited r)
      | .semaphoreDown =>
          ({ sig.2 with a0 := r }, if r = -1 then .blocked else .suspend)
      | .mutexLock =>
          ({ sig.2 with a0 := r }, if r = -1 then .blocked else .suspend)
      | .condvarWait =>
          ({ sig.2 with a0 := r }, if r = -1 then .blocked else .suspend)
      | .other _ => ({ sig.2 with a0 := r }, .suspend)
    | .unsupported _ => (sig.2, .exited (-2))

/-- C8: the dispatcher runs `handle_signals` on the post-syscall context
(after `move_next` and the syscall handler, before resuming user mode):
whenever it yields `ProcessKilled(c)`, the thread is marked Exited with
`c` and the syscall return value is never written back; and in every
case the resulting context is the signal-processed one, possibly with
the syscall return value written to `a0`. -/
theorem dispatcher_signals_after_syscall
    (handleSignals : LocalContext → SignalResult × LocalContext)
    (id : SyscallId) (ret : SyscallResult) (ctx : LocalContext) :
    (∀ c, (handleSignals ctx.move_next).1 = .processKilled c →
      dispatchUserEnvCall handleSignals id ret ctx =
        ((handleSignals ctx.move_next).2, .exited c)) ∧
    ((dispatchUserEnvCall handleSignals id ret ctx).1 =
        (handleSignals ctx.move_next).2 ∨
      ∃ r, ret = .done r ∧
        (dispatchUserEnvCall handleSignals id ret ctx).1 =
          { (handleSignals ctx.move_next).2 with a0 := r }) := by
  constructor
  · intro c hc
    simp [dispatchUserEnvCall, hc]
  · cases hsig : (handleSignals ctx.move_next).1 with
    | processKilled c => left; simp [dispatchUserEnvCall, hsig]
    | noAction =>
      cases ret with
      | done r =>
        cases id with
        | exitId => left; simp [dispatchUserEnvCall, hsig]
        | semaphoreDown => right; exact ⟨r, rfl, by simp [dispatchUserEnvCall, hsig]⟩
        | mutexLock => right; exact ⟨r, rfl, by simp [dispatchUserEnvCall, hsig]⟩
        | condvarWait => right; exact ⟨r, rfl, by simp [dispatchUserEnvCall, hsig]⟩
        | other n => right; exact ⟨r, rfl, by simp [dispatchUserEnvCall, hsig]⟩
      | unsupported n => left; simp [dispatchUserEnvCall, hsig]

/-- Witness for `dispatcher_signals_after_syscall`: with a signal handler
reporting `ProcessKilled(9)`, the dispatcher exits the thread with code 9
and ignores the syscall's `Done(0)` result. -/
theorem dispatcher_signals_after_syscall_witness :
    dispatchUserEnvCall (fun c => (SignalResult.processKilled 9, c))
        (SyscallId.other 0) (SyscallResult.done 0) ⟨0, 0⟩ =
      (((fun c => (SignalResult.processKilled 9, c))
          (LocalContext.move_next ⟨0, 0⟩)).2, .exited 9) :=
  (dispatcher_signals_after_syscall (fun c => (SignalResult.processKilled 9, c))
    (SyscallId.other 0) (SyscallResult.done 0) ⟨0, 0⟩).1 9 rfl

/-! ## Claim C10 — `FileSystem::open` with CREATE (src/ch6/src/fs.rs:52–73)

The on-disk layer (`EasyFileSystem`, `DiskInode`, bitmaps) is referenced
by `src/ch6/tg-easy-fs/src/lib.rs` but its module is not under `src/`;
it is modelled from the spec (§4.6).  The directory is the single root
directory; an inode's data is its byte content. -/

/-- Modelled from the spec (§4.6): the file-system state — the root
directory's entries, each inode's byte content, and the inode bitmap as
the list of allocated inode ids. -/
structure FsState where
  dir : List (String × Nat)
  content : Nat → List Nat
  allocated : List Nat

/-- `Inode::find` on the root directory (vfs.rs:65): look the name up
among the directory entries. -/
def FsState.find (st : FsState) (path : String) : Option Nat :=
  List.lookup path st.dir

/-- `Inode::clear` (vfs.rs:179): `clear_size` the disk inode — size
becomes 0 — and deallocate every data block; modelled as the content
becoming empty. -/
def clearInode (st : FsState) (i : Nat) : FsState :=
  { st with content := fun j => if j = i then [] else st.content j }

/-- Modelled from the spec (§4.6): the inode bitmap allocator scans from
0 for the first clear bit. -/
def allocInodeAux : Nat → Nat → List Nat → Nat
  | 0, n, _ => n
  | fuel + 1, n, l => if n ∈ l then allocInodeAux fuel (n + 1) l else n

/-- Modelled from the spec (§4.6): `EasyFileSystem::alloc_inode`. -/
def allocInode (st : FsState) : Nat :=
  allocInodeAux (st.allocated.length + 1) 0 st.allocated

/-- `Inode::create` (vfs.rs:103): allocate a fresh inode, initialise it
as an empty file, and append a directory entry for it. -/
def createInode (st : FsState) (name : String) : Option (Nat × FsState) :=
  some (allocInode st,
    { dir := st.dir ++ [(name, allocInode st)],
      content := fun j => if j = allocInode st then [] else st.content j,
      allocated := st.allocated ++ [allocInode st] })

/-- A `FileHandle` as returned by `FileHandle::new(readable, writable,
inode)` (tg-easy-fs/src/file.rs). -/
structure FileHandle where
  readable : Bool
  writable : Bool
  inode : Nat
deriving DecidableEq, Repr

/-- `OpenFlags` (tg-easy-fs/src/file.rs:78): WRONLY, RDWR, CREATE, TRUNC
bits (RDONLY is the empty set). -/
structure OpenFlags where
  wronly : Bool
  rdwr : Bool
  create : Bool
  trunc : Bool
deriving DecidableEq, Repr

/-- `OpenFlags::read_write` (tg-easy-fs/src/file.rs:97): empty → read
only; WRONLY → write only; anything else → read-write. -/
def OpenFlags.read_write (f : OpenFlags) : Bool × Bool :=
  if ¬(f.wronly ∨ f.rdwr ∨ f.create ∨ f.trunc) then (true, false)
  else if f.wronly then (false, true)
  else (true, true)

/-- `FileSystem::open` (src/ch6/src/fs.rs:52): with CREATE, an existing
file is cleared and reused, a missing file is created; without CREATE, a
missing file fails and TRUNC clears. -/
def fsOpen (st : FsState) (path : String) (flags : OpenFlags) :
    Option (FileHandle × FsState) :=
  let rw := flags.read_write
  if flags.create then
    match st.find path with
    | some inode => some (⟨rw.1, rw.2, inode⟩, clearInode st inode)
    | none =>
      match createInode st path with
      | some (i, st') => some (⟨rw.1, rw.2, i⟩, st')
      | none => none
  else
    match st.find path with
    | some inode =>
      if flags.trunc then some (⟨rw.1, rw.2, inode⟩, clearInode st inode)
      else some (⟨rw.1, rw.2, inode⟩, st)
    | none => none

/-- C10: opening an existing file with CREATE reuses that very inode —
no inode is allocated, the directory is untouched — and truncates it:
its content becomes empty while every other inode's content is
preserved. -/
theorem open_create_existing_truncates (st : FsState) (path : String)
    (flags : OpenFlags) (i : Nat)
    (hc : flags.create = true) (hf : st.find path = some i) :
    fsOpen st path flags =
      some (⟨(flags.read_write).1, (flags.read_write).2, i⟩, clearInode st i) ∧
    (clearInode st i).allocated = st.allocated ∧
    (clearInode st i).dir = st.dir ∧
    (clearInode st i).content i = [] ∧
    (∀ j, j ≠ i → (clearInode st i).content j = st.content j) := by
  refine ⟨?_, rfl, rfl, by simp [clearInode], ?_⟩
  · simp [fsOpen, hc, hf]
  · intro j hj
    simp [clearInode, hj]

/-- Witness for `open_create_existing_truncates`: a one-file system where
`open("f", CREATE)` truncates the existing inode 0. -/
theorem open_create_existing_truncates_witness :
    fsOpen ⟨[("f", 0)], fun _ => [1, 2, 3], [0]⟩ "f" ⟨false, false, true, false⟩ =
      some (⟨((⟨false, false, true, false⟩ : OpenFlags).read_write).1,
          ((⟨false, false, true, false⟩ : OpenFlags).read_write).2, 0⟩,
        clearInode ⟨[("f", 0)], fun _ => [1, 2, 3], [0]⟩ 0) ∧
    (clearInode ⟨[("f", 0)], fun _ => [1, 2, 3], [0]⟩ 0).allocated = [0] ∧
    (clearInode ⟨[("f", 0)], fun _ => [1, 2, 3], [0]⟩ 0).dir = [("f", 0)] ∧
    (clearInode ⟨[("f", 0)], fun _ => [1, 2, 3], [0]⟩ 0).content 0 = [] ∧
    (∀ j, j ≠ 0 →
      (clearInode ⟨[("f", 0)], fun _ => [1, 2, 3], [0]⟩ 0).content j = [1, 2, 3]) :=
  open_create_existing_truncates ⟨[("f", 0)], fun _ => [1, 2, 3], [0]⟩ "f"
    ⟨false, false, true, false⟩ 0 rfl (by simp [FsState.find])

/-! ## Claims C5/C9 — pipe ring buffer (src/ch6/tg-easy-fs/src/pipe.rs)

`arr` is the 32-byte ring (as a function on indices), `head`/`tail` the
read/write cursors, `status` the Empty/Normal/Full discriminator.  The
`Option<Weak<PipeWriter>>` write-end reference is modelled by `closed`:
`all_write_ends_closed()` — the `Weak` upgrade failing because every
writer `Arc` was dropped — reads it; `make_pipe` starts with a live
writer (`closed = false`). -/

/-- `RingBufferStatus` (pipe.rs:13). -/
inductive RingBufferStatus where
  | full
  | empty
  | normal
deriving DecidableEq, Repr

/-- `RING_BUFFER_SIZE = 32` (pipe.rs:9). -/
def RING_BUFFER_SIZE : Nat := 32

/-- `PipeRingBuffer` (pipe.rs:23). -/
structure PipeRingBuffer where
  arr : Nat → Nat
  head : Nat
  tail : Nat
  status : RingBufferStatus
  closed : Bool

/-- `PipeRingBuffer::new` followed by `make_pipe`'s `set_write_end`
(pipe.rs:33,180): zeroed ring, cursors at 0, Empty, writer alive. -/
def PipeRingBuffer.new : PipeRingBuffer :=
  ⟨fun _ => 0, 0, 0, .empty, false⟩

/-- `write_byte` (pipe.rs:49): status := Normal, store at `tail`, advance
`tail` mod 32, Full when it catches `head`. -/
def write_byte (s : PipeRingBuffer) (b : Nat) : PipeRingBuffer :=
  let t' := (s.tail + 1) % RING_BUFFER_SIZE
  { s with
    arr := fun j => if j = s.tail then b else s.arr j,
    tail := t',
    status := if t' = s.head then .full else .normal }

/-- `read_byte` (pipe.rs:59): take the byte at `head`, advance `head`
mod 32, Empty when it catches `tail`. -/
def read_byte (s : PipeRingBuffer) : Nat × PipeRingBuffer :=
  let h' := (s.head + 1) % RING_BUFFER_SIZE
  (s.arr s.head,
    { s with
      head := h',
      status := if h' = s.tail then .empty else .normal })

/-- `available_read` (pipe.rs:70): 0 when Empty, else the cursor distance
(head/tail equality alone cannot distinguish empty from full). -/
def available_read (s : PipeRingBuffer) : Nat :=
  if s.status = .empty then 0
  else if s.head < s.tail then s.tail - s.head
  else s.tail + RING_BUFFER_SIZE - s.head

/-- `available_write` (pipe.rs:82): 0 when Full, else the complement of
`available_read`. -/
def available_write (s : PipeRingBuffer) : Nat :=
  if s.status = .full then 0 else RING_BUFFER_SIZE - available_read s

/-- `all_write_ends_closed` (pipe.rs:91): the `Weak` write-end upgrade
fails. -/
def all_write_ends_closed (s : PipeRingBuffer) : Bool := s.closed

/-- The structural invariant of the ring: cursors in range and the
status discriminator consistent with cursor equality. -/
def PipeInv (s : PipeRingBuffer) : Prop :=
  s.head < 32 ∧ s.tail < 32 ∧
    (s.status = .empty → s.head = s.tail) ∧
    (s.status = .full → s.head = s.tail) ∧
    (s.status = .normal → s.head ≠ s.tail)

/-- The byte queue the ring currently holds, oldest first. -/
def absQueue (s : PipeRingBuffer) : List Nat :=
  (List.range (available_read s)).map (fun k => s.arr ((s.head + k) % 32))

/-- Status-wise characterisation of `available_read` under the invariant:
Empty holds 0 bytes, Full holds 32, Normal strictly between. -/
theorem inv_available_read (s : PipeRingBuffer) (hinv : PipeInv s) :
    (s.status = .empty → available_read s = 0) ∧
    (s.status = .full → available_read s = 32) ∧
    (s.status = .normal → 0 < available_read s ∧ available_read s < 32) := by
  obtain ⟨hh, ht, hem, hfu, hno⟩ := hinv
  cases hst : s.status <;>
    simp [available_read, RING_BUFFER_SIZE, hst] <;>
    [skip; skip] <;> try omega
  · have := hfu hst
    split_ifs <;> omega
  · have := hno hst
    split_ifs <;> omega

/-- Under the invariant, `available_write` is always the complement of
`available_read`. -/
theorem aw_eq_compl (s : PipeRingBuffer) (hinv : PipeInv s) :
    available_write s = 32 - available_read s := by
  obtain ⟨h1, h2, h3⟩ := inv_available_read s hinv
  rw [available_write]
  by_cases hst : s.status = .full
  · rw [if_pos hst, h2 hst]
  · rw [if_neg hst]
    rfl

/-- The write cursor sits `available_read` slots past the read cursor. -/
theorem head_add_ar (s : PipeRingBuffer) (hinv : PipeInv s) :
    (s.head + available_read s) % 32 = s.tail := by
  obtain ⟨hh, ht, hem, hfu, hno⟩ := hinv
  cases hst : s.status <;> simp [available_read, RING_BUFFER_SIZE, hst]
  · have := hfu hst
    split_ifs <;> omega
  · have := hem hst
    omega
  · have := hno hst
    split_ifs <;> omega

/-- Effect of `write_byte` when there is room (the writer's loop only
calls it `available_write` times): the invariant is preserved, one more
byte becomes readable, and the byte is appended to the held queue. -/
theorem write_byte_spec (s : PipeRingBuffer) (b : Nat) (hinv : PipeInv s)
    (hw : 0 < available_write s) :
    PipeInv (write_byte s b) ∧
    available_read (write_byte s b) = available_read s + 1 ∧
    absQueue (write_byte s b) = absQueue s ++ [b] ∧
    (write_byte s b).closed = s.closed := by
  have har := head_add_ar s hinv
  obtain ⟨hh, ht, hem, hfu, hno⟩ := hinv
  have har1 : available_read (write_byte s b) = available_read s + 1 := by
    rcases hst : s.status with _ | _ | _ <;>
      [skip; specialize hem hst; specialize hno hst] <;>
      simp only [available_read, available_write, write_byte, RING_BUFFER_SIZE, hst,
        reduceCtorEq, if_false, if_true] at hw ⊢ <;>
      split_ifs at hw ⊢ <;> simp_all <;> omega
  have harlt : available_read s < 32 := by
    rcases hst : s.status with _ | _ | _ <;>
      [skip; specialize hem hst; specialize hno hst] <;>
      simp only [available_read, available_write, RING_BUFFER_SIZE, hst,
        reduceCtorEq, if_false, if_true] at hw ⊢ <;>
      (try split_ifs at hw ⊢) <;> (try simp_all) <;> omega
  have hst' : (write_byte s b).status =
      (if (s.tail + 1) % 32 = s.head then RingBufferStatus.full else .normal) := rfl
  refine ⟨?_, har1, ?_, rfl⟩
  · refine ⟨hh, Nat.mod_lt _ (by decide), ?_, ?_, ?_⟩
    · intro habs
      rw [hst'] at habs
      by_cases hc : (s.tail + 1) % 32 = s.head <;> simp [hc] at habs
    · intro hfull
      rw [hst'] at hfull
      by_cases hc : (s.tail + 1) % 32 = s.head
      · show s.head = (s.tail + 1) % RING_BUFFER_SIZE
        simp only [RING_BUFFER_SIZE]
        omega
      · simp [hc] at hfull
    · intro hnorm
      rw [hst'] at hnorm
      by_cases hc : (s.tail + 1) % 32 = s.head
      · simp [hc] at hnorm
      · show s.head ≠ (s.tail + 1) % RING_BUFFER_SIZE
        simp only [RING_BUFFER_SIZE]
        omega
  · rw [absQueue, absQueue, har1, List.range_succ, List.map_append]
    have hhd : (write_byte s b).head = s.head := rfl
    have harr : ∀ j, (write_byte s b).arr j = if j = s.tail then b else s.arr j :=
      fun j => rfl
    congr 1
    · apply List.map_congr_left
      intro k hk
      have hklt : k < available_read s := List.mem_range.mp hk
      rw [hhd, harr]
      have hne : (s.head + k) % 32 ≠ s.tail := by omega
      rw [if_neg hne]
    · simp only [List.map_cons, List.map_nil]
      rw [hhd, harr, if_pos har]

/-- Effect of `read_byte` when a byte is available: the invariant is
preserved, one fewer byte is readable, and the returned byte is the head
of the held queue. -/
theorem read_byte_spec (s : PipeRingBuffer) (hinv : PipeInv s)
    (hr : 0 < available_read s) :
    PipeInv (read_byte s).2 ∧
    available_read (read_byte s).2 = available_read s - 1 ∧
    absQueue s = (read_byte s).1 :: absQueue (read_byte s).2 ∧
    (read_byte s).2.closed = s.closed := by
  have har := head_add_ar s hinv
  obtain ⟨hh, ht, hem, hfu, hno⟩ := hinv
  have har1 : available_read (read_byte s).2 = available_read s - 1 := by
    rcases hst : s.status with _ | _ | _ <;>
      [specialize hfu hst; skip; specialize hno hst] <;>
      simp only [available_read, read_byte, RING_BUFFER_SIZE, hst,
        reduceCtorEq, if_false, if_true] at hr ⊢ <;>
      split_ifs at hr ⊢ <;> simp_all <;> omega
  have hst' : (read_byte s).2.status =
      (if (s.head + 1) % 32 = s.tail then RingBufferStatus.empty else .normal) := rfl
  refine ⟨?_, har1, ?_, rfl⟩
  · refine ⟨Nat.mod_lt _ (by decide), ht, ?_, ?_, ?_⟩
    · intro hempty
      rw [hst'] at hempty
      by_cases hc : (s.head + 1) % 32 = s.tail
      · show (s.head + 1) % RING_BUFFER_SIZE = s.tail
        simp only [RING_BUFFER_SIZE]
        omega
      · simp [hc] at hempty
    · intro hfull
      rw [hst'] at hfull
      by_cases hc : (s.head + 1) % 32 = s.tail <;> simp [hc] at hfull
    · intro hnorm
      rw [hst'] at hnorm
      by_cases hc : (s.head + 1) % 32 = s.tail
      · simp [hc] at hnorm
      · show (s.head + 1) % RING_BUFFER_SIZE ≠ s.tail
        simp only [RING_BUFFER_SIZE]
        omega
  · have hsplit : available_read s = (available_read s - 1) + 1 := by omega
    rw [absQueue, absQueue, har1, hsplit, List.range_succ_eq_map, List.map_cons]
    have hhd : (read_byte s).2.head = (s.head + 1) % 32 := rfl
    have harr : ∀ j, (read_byte s).2.arr j = s.arr j := fun j => rfl
    have hc1 : (read_byte s).1 = s.arr s.head := rfl
    congr 1
    · rw [hc1]
      congr 1
      omega
    · rw [List.map_map]
      apply List.map_congr_left
      intro k hk
      rw [hhd, harr]
      show s.arr ((s.head + (k + 1)) % 32) = s.arr (((s.head + 1) % 32 + k) % 32)
      congr 1
      omega

/-- The states the ring buffer can reach from `new` when `write_byte` is
only called with `available_write() > 0` and `read_byte` only with
`available_read() > 0` — exactly the discipline of `PipeWriter::write`
and `PipeReader::read`. -/
inductive PipeReachable : PipeRingBuffer → Prop where
  | init : PipeReachable PipeRingBuffer.new
  | write (s : PipeRingBuffer) (b : Nat) : PipeReachable s →
      0 < available_write s → PipeReachable (write_byte s b)
  | read (s : PipeRingBuffer) : PipeReachable s →
      0 < available_read s → PipeReachable ((read_byte s).2)

/-- Every reachable ring-buffer state satisfies the structural invariant. -/
theorem pipeReachable_inv (s : PipeRingBuffer) (h : PipeReachable s) :
    PipeInv s := by
  induction h with
  | init =>
    refine ⟨by decide, by decide, fun _ => rfl, fun hc => ?_, fun hc => ?_⟩ <;>
      simp [PipeRingBuffer.new] at hc
  | write s b _ hw ih => exact (write_byte_spec s b ih hw).1
  | read s _ hra ih => exact (read_byte_spec s ih hra).1

/-- C9: in every reachable ring-buffer state, readable and writable
capacities sum to 32, the status is Empty exactly when nothing is
readable, and Full exactly when nothing is writable. -/
theorem pipe_ring_invariant (s : PipeRingBuffer) (h : PipeReachable s) :
    available_read s + available_write s = 32 ∧
    (s.status = .empty ↔ available_read s = 0) ∧
    (s.status = .full ↔ available_write s = 0) := by
  have hinv := pipeReachable_inv s h
  obtain ⟨h1, h2, h3⟩ := inv_available_read s hinv
  have haw := aw_eq_compl s hinv
  have harle : available_read s ≤ 32 := by
    rcases hst : s.status with _ | _ | _
    · rw [h2 hst]
    · rw [h1 hst]; omega
    · exact le_of_lt (h3 hst).2
  refine ⟨by omega, ⟨fun he => h1 he, ?_⟩, ⟨fun hf => by rw [available_write, if_pos hf], ?_⟩⟩
  · intro hz
    rcases hst : s.status with _ | _ | _
    · exfalso; rw [h2 hst] at hz; omega
    · rfl
    · exfalso; have := (h3 hst).1; omega
  · intro hz
    rcases hst : s.status with _ | _ | _
    · rfl
    · exfalso; rw [h1 hst] at haw; omega
    · exfalso; have := (h3 hst).2; omega

/-- Witness for `pipe_ring_invariant`: the state after one `write_byte`
into a fresh pipe. -/
theorem pipe_ring_invariant_witness :
    available_read (write_byte PipeRingBuffer.new 7) +
        available_write (write_byte PipeRingBuffer.new 7) = 32 ∧
    ((write_byte PipeRingBuffer.new 7).status = .empty ↔
      available_read (write_byte PipeRingBuffer.new 7) = 0) ∧
    ((write_byte PipeRingBuffer.new 7).status = .full ↔
      available_write (write_byte PipeRingBuffer.new 7) = 0) :=
  pipe_ring_invariant (write_byte PipeRingBuffer.new 7)
    (PipeReachable.write PipeRingBuffer.new 7 PipeReachable.init (by decide))

/-! ### Claim C5 — FIFO delivery and EOF at the read/write call level -/

/-- The reader's loop body iterated `k` times: `k` calls to `read_byte`,
collecting the bytes in order. -/
def pipeReadBytes : PipeRingBuffer → Nat → List Nat × PipeRingBuffer
  | s, 0 => ([], s)
  | s, k + 1 =>
      let r := read_byte s
      let rest := pipeReadBytes r.2 k
      (r.1 :: rest.1, rest.2)

/-- `PipeReader::read` (pipe.rs:115): with nothing buffered return 0
(EOF) when every write end is closed and `-2` (wait) otherwise; else read
`min(available_read, want)` bytes — `loop_read` is sampled once, and the
loop stops early when the user buffer is full — and return the count. -/
def pipeRead (s : PipeRingBuffer) (want : Nat) : Int × List Nat × PipeRingBuffer :=
  if available_read s = 0 then
    if all_write_ends_closed s then (0, [], s) else (-2, [], s)
  else
    let k := min (available_read s) want
    let r := pipeReadBytes s k
    ((k : Int), r.1, r.2)

/-- The writer's loop body iterated over the bytes to store. -/
def pipeWriteBytes : PipeRingBuffer → List Nat → PipeRingBuffer
  | s, [] => s
  | s, b :: rest => pipeWriteBytes (write_byte s b) rest

/-- `PipeWriter::write` (pipe.rs:153): with no room return `-2` (wait);
else store `min(available_write, len)` bytes — `loop_write` is sampled
once, and the loop stops early when the user buffer is exhausted — and
return the count. -/
def pipeWrite (s : PipeRingBuffer) (bs : List Nat) : Int × Nat × PipeRingBuffer :=
  if available_write s = 0 then (-2, 0, s)
  else
    let k := min (available_write s) bs.length
    ((k : Int), k, pipeWriteBytes s (bs.take k))

/-- Iterated `write_byte` within capacity appends the bytes to the held
queue. -/
theorem pipeWriteBytes_spec : ∀ (bs : List Nat) (s : PipeRingBuffer),
    PipeInv s → bs.length ≤ available_write s →
    PipeInv (pipeWriteBytes s bs) ∧
    absQueue (pipeWriteBytes s bs) = absQueue s ++ bs ∧
    available_read (pipeWriteBytes s bs) = available_read s + bs.length ∧
    (pipeWriteBytes s bs).closed = s.closed := by
  intro bs
  induction bs with
  | nil =>
    intro s hinv _
    exact ⟨hinv, by simp [pipeWriteBytes], by simp [pipeWriteBytes], rfl⟩
  | cons b rest ih =>
    intro s hinv hlen
    have hw : 0 < available_write s := by
      simp only [List.length_cons] at hlen; omega
    obtain ⟨hinv1, har1, habs1, hcl1⟩ := write_byte_spec s b hinv hw
    have haw1 : available_write (write_byte s b) = available_write s - 1 := by
      rw [aw_eq_compl _ hinv1, aw_eq_compl _ hinv, har1]
      omega
    have hrest : rest.length ≤ available_write (write_byte s b) := by
      rw [haw1]; simp only [List.length_cons] at hlen; omega
    obtain ⟨i1, i2, i3, i4⟩ := ih (write_byte s b) hinv1 hrest
    have hun : pipeWriteBytes s (b :: rest) = pipeWriteBytes (write_byte s b) rest := rfl
    refine ⟨hun ▸ i1, ?_, ?_, ?_⟩
    · rw [hun, i2, habs1]; simp
    · rw [hun, i3, har1]; simp only [List.length_cons]; omega
    · rw [hun, i4, hcl1]

/-- Iterated `read_byte` within availability takes the oldest bytes off
the held queue. -/
theorem pipeReadBytes_spec : ∀ (k : Nat) (s : PipeRingBuffer),
    PipeInv s → k ≤ available_read s →
    PipeInv (pipeReadBytes s k).2 ∧
    (pipeReadBytes s k).1 = (absQueue s).take k ∧
    absQueue (pipeReadBytes s k).2 = (absQueue s).drop k ∧
    available_read (pipeReadBytes s k).2 = available_read s - k ∧
    (pipeReadBytes s k).2.closed = s.closed := by
  intro k
  induction k with
  | zero =>
    intro s hinv _
    exact ⟨hinv, by simp [pipeReadBytes], by simp [pipeReadBytes],
      by simp [pipeReadBytes], rfl⟩
  | succ k ih =>
    intro s hinv hk
    have hr : 0 < available_read s := by omega
    obtain ⟨hinv1, har1, habs1, hcl1⟩ := read_byte_spec s hinv hr
    have hrest : k ≤ available_read (read_byte s).2 := by rw [har1]; omega
    obtain ⟨i1, i2, i3, i4, i5⟩ := ih (read_byte s).2 hinv1 hrest
    have hun : pipeReadBytes s (k + 1) =
        ((read_byte s).1 :: (pipeReadBytes (read_byte s).2 k).1,
          (pipeReadBytes (read_byte s).2 k).2) := rfl
    refine ⟨by rw [hun]; exact i1, ?_, ?_, ?_, by rw [hun]; exact i5.trans hcl1⟩
    · rw [hun]
      simp only
      rw [i2, habs1, List.take_succ_cons]
    · rw [hun]
      simp only
      rw [i3, habs1, List.drop_succ_cons]
    · rw [hun]
      simp only
      rw [i4, har1]
      omega

/-- An operation of a pipe trace: a writer `write` call with the bytes it
offers, a reader `read` call with its buffer length, or the last writer
handle being dropped. -/
inductive PipeOp where
  | write (bs : List Nat)
  | read (want : Nat)
  | closeWriters

/-- One trace step over (ring state, bytes accepted from writers so far,
bytes delivered to the reader so far). -/
def pipeStep (acc : PipeRingBuffer × List Nat × List Nat) (op : PipeOp) :
    PipeRingBuffer × List Nat × List Nat :=
  match op with
  | .write bs =>
      let r := pipeWrite acc.1 bs
      (r.2.2, acc.2.1 ++ bs.take r.2.1, acc.2.2)
  | .read want =>
      let r := pipeRead acc.1 want
      (r.2.2, acc.2.1, acc.2.2 ++ r.2.1)
  | .closeWriters => ({ acc.1 with closed := true }, acc.2.1, acc.2.2)

/-- Run a trace from a fresh pipe. -/
def pipeRun (ops : List PipeOp) : PipeRingBuffer × List Nat × List Nat :=
  ops.foldl pipeStep (PipeRingBuffer.new, [], [])

/-- The trace invariant: structural ring invariant, and delivered bytes
followed by the bytes still buffered are exactly the accepted bytes. -/
def PipeTraceInv (acc : PipeRingBuffer × List Nat × List Nat) : Prop :=
  PipeInv acc.1 ∧ acc.2.2 ++ absQueue acc.1 = acc.2.1

/-- Every trace step preserves the trace invariant. -/
theorem pipeStep_preserves (acc : PipeRingBuffer × List Nat × List Nat)
    (op : PipeOp) (h : PipeTraceInv acc) : PipeTraceInv (pipeStep acc op) := by
  obtain ⟨hinv, hq⟩ := h
  cases op with
  | write bs =>
    simp only [pipeStep, pipeWrite]
    by_cases hz : available_write acc.1 = 0
    · rw [if_pos hz]
      exact ⟨hinv, by simpa using hq⟩
    · rw [if_neg hz]
      simp only
      have hlen : (bs.take (min (available_write acc.1) bs.length)).length ≤
          available_write acc.1 := by
        simp [min_le_left]
      obtain ⟨i1, i2, _, _⟩ :=
        pipeWriteBytes_spec (bs.take (min (available_write acc.1) bs.length))
          acc.1 hinv hlen
      refine ⟨i1, ?_⟩
      rw [i2, ← List.append_assoc, hq]
  | read want =>
    simp only [pipeStep, pipeRead]
    by_cases hz : available_read acc.1 = 0
    · rw [if_pos hz]
      by_cases hcl : all_write_ends_closed acc.1
      · rw [if_pos hcl]
        exact ⟨hinv, by simpa using hq⟩
      · rw [if_neg hcl]
        exact ⟨hinv, by simpa using hq⟩
    · rw [if_neg hz]
      simp only
      have hkle : min (available_read acc.1) want ≤ available_read acc.1 :=
        min_le_left _ _
      obtain ⟨i1, i2, i3, _, _⟩ :=
        pipeReadBytes_spec (min (available_read acc.1) want) acc.1 hinv hkle
      refine ⟨i1, ?_⟩
      rw [i2, i3, List.append_assoc, List.take_append_drop, hq]
  | closeWriters =>
    exact ⟨hinv, hq⟩

/-- The trace invariant holds after any trace. -/
theorem pipeRun_inv (ops : List PipeOp) : PipeTraceInv (pipeRun ops) := by
  have hbase : PipeTraceInv (PipeRingBuffer.new, [], []) := by
    refine ⟨pipeReachable_inv _ PipeReachable.init, ?_⟩
    simp [absQueue, available_read, PipeRingBuffer.new]
  have hgen : ∀ (l : List PipeOp) (acc : PipeRingBuffer × List Nat × List Nat),
      PipeTraceInv acc → PipeTraceInv (l.foldl pipeStep acc) := by
    intro l
    induction l with
    | nil => exact fun acc h => h
    | cons op rest ih =>
      intro acc h
      exact ih (pipeStep acc op) (pipeStep_preserves acc op h)
  exact hgen ops _ hbase

/-- A read on an empty buffer returns 0 (EOF) exactly when every write
end has been dropped (`-2`, "wait", otherwise). -/
theorem pipeRead_eof (s : PipeRingBuffer) (want : Nat)
    (h : available_read s = 0) :
    ((pipeRead s want).1 = 0 ↔ all_write_ends_closed s = true) := by
  rw [pipeRead, if_pos h]
  by_cases hcl : all_write_ends_closed s
  · rw [if_pos hcl]
    simp [hcl]
  · rw [if_neg hcl]
    simp only [Bool.not_eq_true] at hcl
    simp [hcl]

/-- C5: over every interleaving of writer `write`s, reader `read`s and
the writers closing, the bytes delivered to the reader followed by the
bytes still buffered are exactly the bytes accepted from the writers —
so delivery is FIFO: the delivered bytes are a prefix of the written
bytes; and a read issued on an empty buffer returns 0 (EOF) iff every
writer handle has been dropped. -/
theorem pipe_fifo_eof (ops : List PipeOp) :
    ((pipeRun ops).2.2 ++ absQueue (pipeRun ops).1 = (pipeRun ops).2.1) ∧
    (∃ rest, (pipeRun ops).2.1 = (pipeRun ops).2.2 ++ rest) ∧
    (∀ want, available_read (pipeRun ops).1 = 0 →
      ((pipeRead (pipeRun ops).1 want).1 = 0 ↔
        all_write_ends_closed (pipeRun ops).1 = true)) := by
  obtain ⟨hinv, hq⟩ := pipeRun_inv ops
  exact ⟨hq, ⟨absQueue (pipeRun ops).1, hq.symm⟩,
    fun want hz => pipeRead_eof (pipeRun ops).1 want hz⟩

/-- Witness for `pipe_fifo_eof`: write "5, 9", read one byte, close the
writers, read again. -/
theorem pipe_fifo_eof_witness :
    ((pipeRun [PipeOp.write [5, 9], PipeOp.read 1, PipeOp.closeWriters]).2.2 ++
        absQueue (pipeRun [PipeOp.write [5, 9], PipeOp.read 1, PipeOp.closeWriters]).1 =
      (pipeRun [PipeOp.write [5, 9], PipeOp.read 1, PipeOp.closeWriters]).2.1) ∧
    (∃ rest, (pipeRun [PipeOp.write [5, 9], PipeOp.read 1, PipeOp.closeWriters]).2.1 =
      (pipeRun [PipeOp.write [5, 9], PipeOp.read 1, PipeOp.closeWriters]).2.2 ++ rest) ∧
    (∀ want,
      available_read (pipeRun [PipeOp.write [5, 9], PipeOp.read 1, PipeOp.closeWriters]).1 = 0 →
      ((pipeRead (pipeRun [PipeOp.write [5, 9], PipeOp.read 1, PipeOp.closeWriters]).1 want).1 = 0 ↔
        all_write_ends_closed
          (pipeRun [PipeOp.write [5, 9], PipeOp.read 1, PipeOp.closeWriters]).1 = true)) :=
  pipe_fifo_eof [PipeOp.write [5, 9], PipeOp.read 1, PipeOp.closeWriters]

end OsKernel
